import Mathlib

/-!
Verification of the secure-index core of keybase/search.

Shallow embedding conventions:
* Bytes are `ℕ` (values < 256 where the Go type is `byte`); byte strings and
  Go strings are `List ℕ`; machine-integer wraparound is written explicitly
  with `% 2 ^ 64` (resp. `% 2 ^ 32`) where the Go code can overflow.
* Bloom filters (`bitarray.BitArray`, a sparse bit array) are `Finset ℕ`:
  `SetBit` is `insert`, `GetBit` is membership.
* External cryptographic and codec primitives that are not part of this
  repository (HMAC, SHA-256, NaCl secretbox, base64, the sparse bit-array
  wire codec, and the Unicode classification tables) are abstracted as the
  fields of an `Externals` record; theorems quantify over them and state the
  round-trip facts they need as hypotheses, matching the documented contracts
  of those libraries.
* Randomness (the per-index nonce and the blinding batches drawn from
  `crypto/rand`) is passed in as explicit arguments.
-/

/-- External collaborators of the secure-index core, i.e. functions the Go code
calls that are not part of this repository.  `hmac k m` is `HMAC-H(k, m)`;
`hashSize` is the output size in bytes of the configured hash `H` (32 for
SHA-256); `sha256` is the checksum used for docID nonces; `sealBox`/`openBox`
are NaCl secretbox seal/open (`nonce`, `key`, `plaintext`/`ciphertext`);
`b64enc`/`b64dec` are `base64.RawURLEncoding` encode/decode;
`bitarrayMarshal`/`bitarrayUnmarshal` are the sparse bit-array wire codec;
`isLetter`/`isDigit`/`toLower` are `unicode.IsLetter`/`IsDigit`/`ToLower` on
code points. -/
structure Externals where
  hmac : List ℕ → List ℕ → List ℕ
  hashSize : ℕ
  sha256 : List ℕ → List ℕ
  sealBox : List ℕ → List ℕ → List ℕ → List ℕ
  openBox : List ℕ → List ℕ → List ℕ → Option (List ℕ)
  b64enc : List ℕ → List ℕ
  b64dec : List ℕ → Option (List ℕ)
  bitarrayMarshal : Finset ℕ → List ℕ
  bitarrayUnmarshal : List ℕ → Option (Finset ℕ)
  isLetter : ℕ → Bool
  isDigit : ℕ → Bool
  toLower : ℕ → ℕ

/-- The error values the embedded Go functions can return (`error` returns). -/
inductive GoError where
  | base64DecodeError
  | binaryReadError
  | invalidDocumentID
  | invalidPadding
  | truncatedError
  | cannotReadInt
  | invalidHashError
  | bloomUnmarshalError
  deriving DecidableEq, Repr

/-- Outcome of a Go function that can return a value, return an error, or
panic (run-time errors such as slice-bounds or index-out-of-range are
`panicked`, which is distinct from returning a Go `error`). -/
inductive GoResult (α : Type) where
  | ok : α → GoResult α
  | goError : GoError → GoResult α
  | panicked : GoResult α
  deriving DecidableEq, Repr

/-- `encoding/binary.MaxVarintLen64` = 10. -/
def MaxVarintLen64 : ℕ := 10

/-- One step of Go's `binary.Uvarint` loop over the buffer: accumulator `x`,
shift `s`, byte position `i`.  Returns the decoded value and the byte count
(`0` when the buffer ends mid-varint, negative on 64-bit overflow), exactly as
`encoding/binary.Uvarint` does.  `uint64` wraparound of `uint64(b) << s` is
the explicit `% 2 ^ 64`. -/
def uvarintAux : List ℕ → ℕ → ℕ → ℕ → ℕ × ℤ
  | [], _, _, _ => (0, 0)
  | b :: rest, x, s, i =>
    if i = MaxVarintLen64 then (0, -((i : ℤ) + 1))
    else if b < 128 then
      if i = MaxVarintLen64 - 1 ∧ 1 < b then (0, -((i : ℤ) + 1))
      else (x ||| (b <<< s) % 2 ^ 64, (i : ℤ) + 1)
    else uvarintAux rest (x ||| ((b &&& 127) <<< s) % 2 ^ 64) (s + 7) (i + 1)

/-- Go's `encoding/binary.Uvarint`: little-endian base-128 varint decode. -/
def uvarint (buf : List ℕ) : ℕ × ℤ := uvarintAux buf 0 0 0

/-- The loop of Go's `binary.PutUvarint`: emit 7 bits per byte, low first,
continuation bit 0x80 (`byte(x) | 0x80` is `x % 256 ||| 128`).  A `uint64`
needs at most 10 bytes, so fuel `MaxVarintLen64` suffices for every
`x < 2 ^ 64`; the fuel only makes the recursion structural. -/
def putUvarintGo : ℕ → ℕ → List ℕ
  | 0, x => [x]
  | fuel + 1, x =>
    if x < 128 then [x]
    else (x % 256 ||| 128) :: putUvarintGo fuel (x >>> 7)

/-- Go's `encoding/binary.PutUvarint` (the bytes it writes). -/
def putUvarint (x : ℕ) : List ℕ := putUvarintGo MaxVarintLen64 x

/-- Go's `uint64(z)` for an `int64` value `z`: the two's-complement bit
pattern. -/
def uint64OfInt64 (z : ℤ) : ℕ := (z % (2 ^ 64 : ℤ)).toNat

/-- Go's `int64(n)` for a `uint64` value `n`: reinterpret the bit pattern as
signed. -/
def int64OfUInt64 (n : ℕ) : ℤ := if n < 2 ^ 63 then (n : ℤ) else (n : ℤ) - 2 ^ 64

/-- The value an `int64` arithmetic result wraps to: the representative of `z`
modulo `2 ^ 64` in `[-2^63, 2^63)`. -/
def int64Of (z : ℤ) : ℤ := int64OfUInt64 (uint64OfInt64 z)

/-- Go's `encoding/binary.PutVarint`: zigzag-encode (`ux := uint64(x) << 1;
if x < 0 then ux = ^ux`) and emit as an unsigned varint. -/
def putVarint (x : ℤ) : List ℕ :=
  let ux := 2 * uint64OfInt64 x % 2 ^ 64
  putUvarint (if x < 0 then 2 ^ 64 - 1 - ux else ux)

/-- Go's `encoding/binary.Varint`: unsigned decode then zigzag
(`x := int64(ux >> 1); if ux&1 != 0 then x = ^x`; `^x` on `int64` is
`-x - 1`). -/
def varint (buf : List ℕ) : ℤ × ℤ :=
  let p := uvarint buf
  (if p.1 % 2 ≠ 0 then -((p.1 >>> 1 : ℕ) : ℤ) - 1 else ((p.1 >>> 1 : ℕ) : ℤ), p.2)

/-- `readInt` from src/libsearch/util.go lines 117-123: decode a signed varint
from the input, failing when `binary.Varint` reports `numBytes <= 0`. -/
def readInt (input : List ℕ) : Except GoError ℤ :=
  let p := varint input
  if p.2 ≤ 0 then .error .cannotReadInt else .ok p.1

/-- A fixed header slot of `MaxVarintLen64` bytes: the varint bytes written at
the start of a zeroed 10-byte region (`make([]byte, ...)` zero-fills and
`PutUvarint` overwrites only its prefix). -/
def slot10 (l : List ℕ) : List ℕ := l ++ List.replicate (MaxVarintLen64 - l.length) 0

/-- `NormalizeKeyword` from src/libsearch/util.go lines 145-155: keep only the
Unicode letters and digits of the keyword, each folded to lower case. -/
def NormalizeKeyword (E : Externals) (keyword : List ℕ) : List ℕ :=
  (keyword.filter fun c => E.isDigit c || E.isLetter c).map E.toLower

/-- `SecureIndexBuilder` from src/libsearch/secure_index_builder.go lines
28-33.  The `hash` and the PBKDF2-derived PRF keys appear through `E.hmac` and
`keys`; `size` is the number of buckets in the bloom filter. -/
structure SecureIndexBuilder where
  keys : List (List ℕ)
  size : ℕ

/-- The `trapdoorFunc` closure set up by `CreateSecureIndexBuilder`
(src/libsearch/secure_index_builder.go lines 46-54): one `HMAC-H(kᵢ, word)`
per PRF key. -/
def trapdoorFunc (E : Externals) (sib : SecureIndexBuilder) (word : List ℕ) : List (List ℕ) :=
  sib.keys.map fun k => E.hmac k word

/-- `ComputeTrapdoors` from src/libsearch/secure_index_builder.go lines
127-129: normalize the word, then apply the trapdoor function. -/
def ComputeTrapdoors (E : Externals) (sib : SecureIndexBuilder) (word : List ℕ) : List (List ℕ) :=
  trapdoorFunc E sib (NormalizeKeyword E word)

/-- The loop of Go's `math/big` `Bytes()` on a value `n < 2 ^ 64`: the minimal
big-endian byte encoding (empty for 0).  Eight bytes always suffice, so fuel 8
makes the recursion structural. -/
def bigEndianMinimalGo : ℕ → ℕ → List ℕ
  | 0, _ => []
  | fuel + 1, n =>
    if n = 0 then [] else bigEndianMinimalGo fuel (n / 256) ++ [n % 256]

/-- Minimal big-endian byte encoding of `n < 2 ^ 64` (the spec's
`big-endian-minimal`, and Go's `big.Int.Bytes` of a value in that range). -/
def bigEndianMinimal (n : ℕ) : List ℕ := bigEndianMinimalGo 8 n

/-- The message the builder HMACs for a codeword
(src/libsearch/secure_index_builder.go line 78):
`big.NewInt(int64(nonce)).Bytes()`, i.e. the minimal big-endian encoding of
the ABSOLUTE VALUE of the nonce reinterpreted as a signed 64-bit integer. -/
def nonceMessage (nonce : ℕ) : List ℕ := bigEndianMinimal (int64OfUInt64 nonce).natAbs

/-- The codeword for one trapdoor (src/libsearch/secure_index_builder.go lines
77-79): `binary.Uvarint(HMAC-H(trapdoor, nonceMessage nonce))`, the decode
error being ignored. -/
def codewordOf (E : Externals) (trapdoor : List ℕ) (nonce : ℕ) : ℕ :=
  (uvarint (E.hmac trapdoor (nonceMessage nonce))).1

/-- The inner loop of `buildBloomFilter` for one unseen word
(src/libsearch/secure_index_builder.go lines 75-81): set bit
`codeword % sib.size` for each trapdoor of the word. -/
def setCodewords (E : Externals) (sib : SecureIndexBuilder) (nonce : ℕ) (word : List ℕ)
    (bf : Finset ℕ) : Finset ℕ :=
  (trapdoorFunc E sib word).foldl (fun b t => insert (codewordOf E t nonce % sib.size) b) bf

/-- The scanner loop of `buildBloomFilter` (src/libsearch/secure_index_builder.go
lines 67-82): normalize each whitespace token, skip tokens whose normal form
was already seen, otherwise record it and set its codeword bits. -/
def buildBloomFilterAux (E : Externals) (sib : SecureIndexBuilder) (nonce : ℕ) :
    List (List ℕ) → Finset ℕ → Finset (List ℕ) → Finset ℕ × Finset (List ℕ)
  | [], bf, words => (bf, words)
  | t :: rest, bf, words =>
    let word := NormalizeKeyword E t
    if word ∈ words then buildBloomFilterAux E sib nonce rest bf words
    else buildBloomFilterAux E sib nonce rest (setCodewords E sib nonce word bf) (insert word words)

/-- `buildBloomFilter` from src/libsearch/secure_index_builder.go lines 62-84:
the document is its list of whitespace tokens (`bufio.ScanWords`); returns the
unblinded bloom filter and the number of distinct normalized tokens. -/
def buildBloomFilter (E : Externals) (sib : SecureIndexBuilder) (nonce : ℕ)
    (tokens : List (List ℕ)) : Finset ℕ × ℕ :=
  let p := buildBloomFilterAux E sib nonce tokens ∅ ∅
  (p.1, p.2.card)

/-- `GetNumLeadingZeroes` from src/libsearch/util.go lines 47-87: leading
zeroes of a `uint64` by the `__builtin_clz` cascade. -/
def GetNumLeadingZeroes (num : ℕ) : ℕ :=
  let numZeroes := 64
  let x := num
  let y := x >>> 32
  let p := if y ≠ 0 then (numZeroes - 32, y) else (numZeroes, x)
  let y := p.2 >>> 16
  let p := if y ≠ 0 then (p.1 - 16, y) else p
  let y := p.2 >>> 8
  let p := if y ≠ 0 then (p.1 - 8, y) else p
  let y := p.2 >>> 4
  let p := if y ≠ 0 then (p.1 - 4, y) else p
  let y := p.2 >>> 2
  let p := if y ≠ 0 then (p.1 - 2, y) else p
  let y := p.2 >>> 1
  if y ≠ 0 then p.1 - 2 else p.1 - p.2

/-- `BuildMaskWithLeadingZeroes` from src/libsearch/util.go lines 91-93:
`(^uint64(0)) >> numZeroes`. -/
def BuildMaskWithLeadingZeroes (numZeroes : ℕ) : ℕ := (2 ^ 64 - 1) >>> numZeroes

/-- The inner loop of `blindBloomFilter` over one batch of random `uint64`s
(src/libsearch/secure_index_builder.go lines 99-108): mask each draw, accept
it as a bit index only when it is below `size`, decrement the remaining
iteration count `i`, and break out of the batch when `i` reaches 0.  Returns
the updated filter and remaining count. -/
def processBatch (size mask : ℕ) : List ℕ → ℤ → Finset ℕ → Finset ℕ × ℤ
  | [], i, bf => (bf, i)
  | randNum :: rest, i, bf =>
    let actualNum := randNum &&& mask
    if actualNum < size then
      if i - 1 = 0 then (insert actualNum bf, 0)
      else processBatch size mask rest (i - 1) (insert actualNum bf)
    else processBatch size mask rest i bf

/-- `blindBloomFilter` from src/libsearch/secure_index_builder.go lines
90-111: while iterations remain, draw a batch of random `uint64`s and process
it.  The Go loop draws batches from `crypto/rand` until done (batch sizes are
`1.3` times the remaining count, but any sizes are faithful); here the batches
are an input, and `none` models a run that has not finished (or whose RNG read
failed) within the supplied batches. -/
def blindBloomFilter (size : ℕ) (bf : Finset ℕ) (numIterations : ℤ)
    (batches : List (List ℕ)) : Option (Finset ℕ) :=
  if numIterations ≤ 0 then some bf
  else
    match batches with
    | [] => none
    | randNums :: rest =>
      let mask := BuildMaskWithLeadingZeroes (GetNumLeadingZeroes size)
      let p := processBatch size mask randNums numIterations bf
      blindBloomFilter size p.1 p.2 rest

/-- `SecureIndex` from src/libsearch/secure_index.go lines 309-314.  The Go
field `Hash func() hash.Hash` is embedded by its output size in bytes
(`hashSize`), 32 standing for `sha256.New` and 64 for `sha512.New`, which is
exactly the information the codec uses. -/
structure SecureIndex where
  bloomFilter : Finset ℕ
  nonce : ℕ
  size : ℕ
  hashSize : ℕ
  deriving DecidableEq

/-- The blinding iteration count `(fileLen - numUniqWords) * int64(len(sib.keys))`
of src/libsearch/secure_index_builder.go line 121, computed as Go does in
`int64` arithmetic: the subtraction and the multiplication both wrap
(`numUniqWords` is `int64(len(words))` and `int64(len(sib.keys))` the slice
length as `int64`). -/
def blindingIterations (sib : SecureIndexBuilder) (fileLen : ℤ) (numUniqWords : ℕ) : ℤ :=
  int64Of (int64Of (fileLen - int64Of (numUniqWords : ℤ)) * int64Of (sib.keys.length : ℤ))

/-- `BuildSecureIndex` from src/libsearch/secure_index_builder.go lines
115-123: build the bloom filter over the document tokens, then blind it with
`(fileLen - numUniqWords) * len(keys)` iterations, that count computed in
`int64` arithmetic with wraparound.  The random nonce draw and the blinding
batches are explicit inputs; `none` models the RNG failing (or the blinding
loop still running). -/
def BuildSecureIndex (E : Externals) (sib : SecureIndexBuilder) (nonce : ℕ)
    (tokens : List (List ℕ)) (fileLen : ℤ) (batches : List (List ℕ)) : Option SecureIndex :=
  let p := buildBloomFilter E sib nonce tokens
  match blindBloomFilter sib.size p.1 (blindingIterations sib fileLen p.2) batches with
  | none => none
  | some bf => some { bloomFilter := bf, nonce := nonce, size := sib.size, hashSize := E.hashSize }

/-- `bfContainsWord` from src/libsearch/secure_index_builder_test.go lines
62-74: a word is possibly-present when for every trapdoor of the (raw) word
the bit `codeword % size` is set. -/
def bfContainsWord (E : Externals) (bf : Finset ℕ) (sib : SecureIndexBuilder) (nonce : ℕ)
    (word : List ℕ) : Bool :=
  (trapdoorFunc E sib word).all fun trapdoor =>
    decide (codewordOf E trapdoor nonce % sib.size ∈ bf)

/-- Modelled from the spec: the server-side searcher (spec section 4.4); the
repository's `SearchSecureIndex` implementation is not under src/ (only its
test is).  Given a stored index and a trapdoor vector it answers
possibly-present iff for every trapdoor the bit `codeword mod m` is set, with
the codeword reduction exactly as in the builder (and as in `bfContainsWord`
of src/libsearch/secure_index_builder_test.go). -/
def SearchSecureIndex (E : Externals) (si : SecureIndex) (trapdoors : List (List ℕ)) : Bool :=
  trapdoors.all fun trapdoor =>
    decide (codewordOf E trapdoor si.nonce % si.size ∈ si.bloomFilter)

/-- `MarshalBinary` from src/libsearch/util.go lines 317-329: three fixed
header slots of `MaxVarintLen64` bytes — the hash output size as a signed
varint, the nonce and the size as unsigned varints — followed by the
serialized bloom filter (`result` is zero-filled by `make`, and each
`Put(U)varint` writes at offsets 0, 10 and 20). -/
def MarshalBinary (E : Externals) (si : SecureIndex) : List ℕ :=
  slot10 (putVarint (si.hashSize : ℤ)) ++
    (slot10 (putUvarint si.nonce) ++
      (slot10 (putUvarint si.size) ++ E.bitarrayMarshal si.bloomFilter))

/-- `UnmarshalBinary` from src/libsearch/util.go lines 332-354: insufficient
length below three slots; `readInt` on bytes [0,10) gives the hash size, 32
mapping to `sha256.New` and 64 to `sha512.New` (recorded as `hashSize`),
anything else failing; nonce and size are `binary.Uvarint` on bytes [10,20)
and [20,30) with the decode error ignored; the rest is the bloom filter. -/
def UnmarshalBinary (E : Externals) (input : List ℕ) : Except GoError SecureIndex :=
  if input.length < 3 * MaxVarintLen64 then .error .truncatedError
  else
    match readInt (input.take MaxVarintLen64) with
    | .error e => .error e
    | .ok hashLen =>
      if hashLen = 32 ∨ hashLen = 64 then
        match E.bitarrayUnmarshal (input.drop (3 * MaxVarintLen64)) with
        | none => .error .bloomUnmarshalError
        | some bf =>
          .ok { bloomFilter := bf,
                nonce := (uvarint ((input.drop MaxVarintLen64).take MaxVarintLen64)).1,
                size := (uvarint ((input.drop (2 * MaxVarintLen64)).take MaxVarintLen64)).1,
                hashSize := hashLen.toNat }
      else .error .invalidHashError

/-- `libkbfs.FirstValidKeyGen` (external constant of the hosting filesystem):
the first valid key generation, 1. -/
def FirstValidKeyGen : ℤ := 1

/-- Go's `copy` of a byte slice into a zeroed fixed-size array of `k` bytes:
up to `k` leading bytes of `l`, the remainder staying zero. -/
def fixedBytes (k : ℕ) (l : List ℕ) : List ℕ :=
  l.take k ++ List.replicate (k - (l.take k).length) 0

/-- Little-endian bytes of a `uint32` (`binary.Write` of `origLen`). -/
def putUint32LE (n : ℕ) : List ℕ :=
  [n % 256, n >>> 8 % 256, n >>> 16 % 256, n >>> 24 % 256]

/-- Little-endian bytes of an `int64` value (`binary.Write` of
`int64(keyGen)`). -/
def putInt64LE (z : ℤ) : List ℕ :=
  let n := uint64OfInt64 z
  [n % 256, n >>> 8 % 256, n >>> 16 % 256, n >>> 24 % 256,
   n >>> 32 % 256, n >>> 40 % 256, n >>> 48 % 256, n >>> 56 % 256]

/-- `binary.Read` of a little-endian `uint32`: fails (`io` error) when fewer
than 4 bytes are available. -/
def readUint32LE (l : List ℕ) : Option ℕ :=
  match l with
  | b0 :: b1 :: b2 :: b3 :: _ => some (b0 + b1 <<< 8 + b2 <<< 16 + b3 <<< 24)
  | _ => none

/-- `binary.Read` of a little-endian `int64` from a buffer its callers
guarantee holds (at least) 8 bytes. -/
def readInt64LE8 (l : List ℕ) : ℤ :=
  match l with
  | b0 :: b1 :: b2 :: b3 :: b4 :: b5 :: b6 :: b7 :: _ =>
    int64OfUInt64 (b0 + b1 <<< 8 + b2 <<< 16 + b3 <<< 24 +
      b4 <<< 32 + b5 <<< 40 + b6 <<< 48 + b7 <<< 56)
  | _ => 0

/-- `nextPowerOfTwo` from src/libsearch/util.go lines 238-252, on `uint32`
(`n - 1` wraps, and the final `n + 1` wraps, modulo `2 ^ 32`). -/
def nextPowerOfTwo (n0 : ℕ) : ℕ :=
  let n := if n0 &&& ((n0 + (2 ^ 32 - 1)) % 2 ^ 32) = 0 then (n0 + 1) % 2 ^ 32 else n0
  let n := (n + (2 ^ 32 - 1)) % 2 ^ 32
  let n := n ||| n >>> 1
  let n := n ||| n >>> 2
  let n := n ||| n >>> 4
  let n := n ||| n >>> 8
  let n := n ||| n >>> 16
  (n + 1) % 2 ^ 32

/-- `padPathname` from src/libsearch/util.go lines 259-272: the 4-byte
little-endian `uint32` length prefix followed by the pathname bytes.  NOTE:
the Go code computes `paddedLen := nextPowerOfTwo(origLen)` but uses it only
as the capacity of the `bytes.Buffer`; no padding bytes are ever written, so
the returned slice has length `4 + len(pathname)`. -/
def padPathname (pathname : List ℕ) : List ℕ :=
  let origLen := pathname.length % 2 ^ 32
  let _paddedLen := nextPowerOfTwo origLen
  putUint32LE origLen ++ pathname

/-- `depadPathname` from src/libsearch/util.go lines 277-291: read the 4-byte
little-endian length, fail when `contentEndPos` exceeds the input length, and
return the next `origLen` bytes.  `contentEndPos := int(padPrefixLength +
origLen)` adds in `uint32` — the untyped constant 4 converts to `origLen`'s
type — so the bound wraps for `origLen ≥ 2^32 - 4`, while `buf.Next` still
uses the unwrapped `origLen` (and, like `take`, yields at most the remaining
bytes). -/
def depadPathname (paddedPathname : List ℕ) : GoResult (List ℕ) :=
  match readUint32LE paddedPathname with
  | none => .goError .binaryReadError
  | some origLen =>
    let contentEndPos := (4 + origLen) % 2 ^ 32
    if paddedPathname.length < contentEndPos then .goError .invalidPadding
    else .ok ((paddedPathname.drop 4).take origLen)

/-- `PathnameToDocID` from src/libsearch/util.go lines 167-188: the nonce is
the first 24 bytes of `SHA-256(pathname)`; the plaintext is the padded
pathname; the document ID is the URL-safe unpadded base64 encoding of
`int64-LE(keyGen) || nonce || secretbox-sealed(padded)`. -/
def PathnameToDocID (E : Externals) (keyGen : ℤ) (pathname : List ℕ) (key : List ℕ) : List ℕ :=
  let nonce := fixedBytes 24 (E.sha256 pathname)
  let paddedPathname := padPathname pathname
  let sealedBox := E.sealBox nonce key paddedPathname
  E.b64enc (putInt64LE keyGen ++ (nonce ++ sealedBox))

/-- `DocIDToPathname` from src/libsearch/util.go lines 192-214: base64-decode
(error return on failure); slice bytes [0,8) as the little-endian `int64` key
generation — a PANIC when fewer than 8 bytes decoded; index
`keys[keyGen - FirstValidKeyGen]` — a PANIC when out of range; slice bytes
[8,32) as the nonce — a PANIC when fewer than 32 bytes decoded; open the
secretbox (error return `invalid document ID` on failure); depad. -/
def DocIDToPathname (E : Externals) (docID : List ℕ) (keys : List (List ℕ)) :
    GoResult (List ℕ) :=
  match E.b64dec docID with
  | none => .goError .base64DecodeError
  | some docIDRaw =>
    if docIDRaw.length < 8 then .panicked
    else
      let keyGen := readInt64LE8 (docIDRaw.take 8)
      if keyGen - FirstValidKeyGen < 0 ∨ (keys.length : ℤ) ≤ keyGen - FirstValidKeyGen then
        .panicked
      else
        let key := keys.getD (keyGen - FirstValidKeyGen).toNat []
        if docIDRaw.length < 32 then .panicked
        else
          let nonce := fixedBytes 24 ((docIDRaw.drop 8).take 24)
          match E.openBox nonce key (docIDRaw.drop 32) with
          | none => .goError .invalidDocumentID
          | some pathnameRaw => depadPathname pathnameRaw

/-- `GetKeyGenFromDocID` from src/libsearch/util.go lines 220-233:
base64-decode (error return on failure) and read bytes [0,8) as the
little-endian `int64` key generation — a PANIC when fewer than 8 bytes
decoded. -/
def GetKeyGenFromDocID (E : Externals) (docID : List ℕ) : GoResult ℤ :=
  match E.b64dec docID with
  | none => .goError .base64DecodeError
  | some docIDRaw =>
    if docIDRaw.length < 8 then .panicked
    else .ok (readInt64LE8 (docIDRaw.take 8))

/-- A concrete instantiation of the external collaborators, used to exercise
the theorems on closed inputs: the box and base64 codecs are identities (which
satisfy the round-trip contracts), and the bit-array codec round-trips on the
empty filter used by the codec witnesses. -/
def trivialExternals : Externals where
  hmac := fun k m => k ++ m
  hashSize := 32
  sha256 := fun _ => List.replicate 32 0
  sealBox := fun _ _ plaintext => plaintext
  openBox := fun _ _ ciphertext => some ciphertext
  b64enc := fun l => l
  b64dec := fun l => some l
  bitarrayMarshal := fun _ => []
  bitarrayUnmarshal := fun _ => some ∅
  isLetter := fun c => 97 ≤ c && c ≤ 122
  isDigit := fun c => 48 ≤ c && c ≤ 57
  toLower := fun c => c

/-! ### Bitwise arithmetic helpers -/

theorem lor_shift_eq_add (x u s : ℕ) (hx : x < 2 ^ s) :
    x ||| u <<< s = 2 ^ s * u + x := by
  apply Nat.eq_of_testBit_eq
  intro j
  rw [Nat.testBit_lor, Nat.testBit_shiftLeft, Nat.testBit_mul_pow_two_add u hx j]
  by_cases h : j < s
  · simp [h, Nat.not_le.mpr h]
  · have hj : x.testBit j = false := Nat.testBit_lt_two_pow
      (lt_of_lt_of_le hx (Nat.pow_le_pow_right (by norm_num) (Nat.not_lt.mp h)))
    simp [h, hj, Nat.not_lt.mp h]

theorem mod256_or128 (u : ℕ) : u % 256 ||| 128 = u % 128 + 128 := by
  apply Nat.eq_of_testBit_eq
  intro j
  rw [Nat.testBit_lor, show u % 128 + 128 = 2 ^ 7 * 1 + u % 128 by omega,
    Nat.testBit_mul_pow_two_add 1 (by omega) j,
    show (128 : ℕ) = 2 ^ 7 by norm_num, Nat.testBit_two_pow,
    show (256 : ℕ) = 2 ^ 8 by norm_num, Nat.testBit_mod_two_pow]
  rcases lt_trichotomy j 7 with h | h | h
  · rw [if_pos h, Nat.testBit_mod_two_pow]
    rw [decide_eq_false (by omega : ¬(7 = j)), decide_eq_true (show j < 8 by omega),
      decide_eq_true h]
    simp
  · subst h
    rw [show Nat.testBit 1 0 = true from by decide]
    simp
  · rw [if_neg (by omega),
      show Nat.testBit 1 (j - 7) = false from
        Nat.testBit_lt_two_pow (Nat.one_lt_two_pow_iff.mpr (by omega)),
      decide_eq_false (by omega : ¬(7 = j)), decide_eq_false (by omega : ¬(j < 8))]
    simp

theorem or128_and127 (u : ℕ) : (u % 256 ||| 128) &&& 127 = u % 128 := by
  rw [mod256_or128, show (127 : ℕ) = 2 ^ 7 - 1 by norm_num,
    Nat.and_pow_two_sub_one_eq_mod]
  omega

theorem not_or128_lt (u : ℕ) : ¬(u % 256 ||| 128) < 128 := by
  rw [mod256_or128]; omega

/-! ### Varint round-trip -/

theorem uvarintAux_putUvarintGo (f : ℕ) :
    ∀ (u : ℕ) (rest : List ℕ) (x s i : ℕ),
      u < 2 ^ (64 - 7 * i) → i + f = 10 → i ≤ 9 → x < 2 ^ s → s = 7 * i →
      uvarintAux (putUvarintGo f u ++ rest) x s i
        = (2 ^ s * u + x, (i : ℤ) + (putUvarintGo f u).length) := by
  induction f with
  | zero => intro u rest x s i _ hf hi _ _; omega
  | succ f ih =>
    intro u rest x s i hu hf hi hx hs
    by_cases hsmall : u < 128
    · rw [putUvarintGo, if_pos hsmall]
      simp only [List.cons_append, List.nil_append, uvarintAux, List.length_cons,
        List.length_nil]
      rw [if_neg (by simp [MaxVarintLen64]; omega), if_pos hsmall,
        if_neg (by
          simp only [MaxVarintLen64, not_and]
          intro h9
          rw [h9] at hu
          norm_num at hu
          omega)]
      have hshift : u <<< s = 2 ^ s * u := by
        rw [Nat.shiftLeft_eq]; ring
      have hlt : u <<< s < 2 ^ 64 := by
        rw [hshift]
        calc 2 ^ s * u < 2 ^ s * 2 ^ (64 - 7 * i) :=
              mul_lt_mul_of_pos_left hu (Nat.two_pow_pos s)
        _ ≤ 2 ^ 64 := by rw [← pow_add]; exact Nat.pow_le_pow_right (by norm_num) (by omega)
      rw [Nat.mod_eq_of_lt hlt, lor_shift_eq_add x u s hx]
      simp
    · rw [putUvarintGo, if_neg hsmall]
      have hile : i ≤ 8 := by
        by_contra hgt
        have hi9 : i = 9 := by omega
        rw [hi9] at hu
        norm_num at hu
        omega
      simp only [List.cons_append, List.append_eq, uvarintAux]
      rw [if_neg (by simp [MaxVarintLen64]; omega), if_neg (not_or128_lt u),
        or128_and127 u]
      have hm : (u % 128) <<< s < 2 ^ 64 := by
        rw [Nat.shiftLeft_eq]
        calc u % 128 * 2 ^ s < 2 ^ 7 * 2 ^ s :=
              mul_lt_mul_of_pos_right (by omega) (Nat.two_pow_pos s)
        _ ≤ 2 ^ 64 := by rw [← pow_add]; exact Nat.pow_le_pow_right (by norm_num) (by omega)
      rw [Nat.mod_eq_of_lt hm, lor_shift_eq_add x (u % 128) s hx]
      have hx' : 2 ^ s * (u % 128) + x < 2 ^ (s + 7) := by
        have : 2 ^ s * (u % 128) ≤ 2 ^ s * 127 :=
          Nat.mul_le_mul_left _ (by omega)
        calc 2 ^ s * (u % 128) + x < 2 ^ s * 127 + 2 ^ s := by omega
        _ = 2 ^ (s + 7) := by rw [pow_add]; ring
      have hu' : u >>> 7 < 2 ^ (64 - 7 * (i + 1)) := by
        rw [Nat.shiftRight_eq_div_pow]
        rw [Nat.div_lt_iff_lt_mul (by norm_num : 0 < (2 : ℕ) ^ 7)]
        calc u < 2 ^ (64 - 7 * i) := hu
        _ = 2 ^ (64 - 7 * (i + 1)) * 2 ^ 7 := by rw [← pow_add]; congr 1; omega
      rw [ih (u >>> 7) rest (2 ^ s * (u % 128) + x) (s + 7) (i + 1) hu' (by omega)
        (by omega) hx' (by omega)]
      rw [Prod.mk.injEq]
      constructor
      · conv_rhs => rw [← Nat.div_add_mod u 128]
        rw [Nat.shiftRight_eq_div_pow, show (2 : ℕ) ^ 7 = 128 from by norm_num] at *
        rw [pow_add, show (2 : ℕ) ^ 7 = 128 from by norm_num]
        ring
      · simp only [List.length_cons]
        push_cast
        ring

theorem uvarint_putUvarint (u : ℕ) (rest : List ℕ) (hu : u < 2 ^ 64) :
    uvarint (putUvarint u ++ rest) = (u, ((putUvarint u).length : ℤ)) := by
  have h := uvarintAux_putUvarintGo MaxVarintLen64 u rest 0 0 0 (by simpa using hu)
    (by norm_num [MaxVarintLen64]) (by norm_num) (by norm_num) (by norm_num)
  simpa [uvarint, putUvarint] using h

theorem putUvarintGo_length (f : ℕ) :
    ∀ u, 0 < f → u < 2 ^ (7 * f) → (putUvarintGo f u).length ≤ f := by
  induction f with
  | zero => intro u h; omega
  | succ f ih =>
    intro u _ hu
    by_cases hsmall : u < 128
    · rw [putUvarintGo, if_pos hsmall]; simp
    · rw [putUvarintGo, if_neg hsmall]
      simp only [List.length_cons]
      rcases Nat.eq_zero_or_pos f with hf | hf
      · subst hf; norm_num at hu; omega
      · have : u >>> 7 < 2 ^ (7 * f) := by
          rw [Nat.shiftRight_eq_div_pow]
          rw [Nat.div_lt_iff_lt_mul (by norm_num : 0 < (2 : ℕ) ^ 7)]
          calc u < 2 ^ (7 * (f + 1)) := hu
          _ = 2 ^ (7 * f) * 2 ^ 7 := by
            rw [← pow_add, show 7 * f + 7 = 7 * (f + 1) from by omega]
        have := ih (u >>> 7) hf this
        omega

theorem putUvarint_length_le (u : ℕ) (hu : u < 2 ^ 64) :
    (putUvarint u).length ≤ MaxVarintLen64 := by
  exact putUvarintGo_length MaxVarintLen64 u (by norm_num [MaxVarintLen64])
    (lt_of_lt_of_le hu (Nat.pow_le_pow_right (by norm_num) (by norm_num [MaxVarintLen64])))

theorem slot10_length (l : List ℕ) (h : l.length ≤ MaxVarintLen64) :
    (slot10 l).length = MaxVarintLen64 := by
  simp [slot10]
  omega

theorem uvarint_slot10_putUvarint (u : ℕ) (hu : u < 2 ^ 64) :
    (uvarint (slot10 (putUvarint u))).1 = u := by
  unfold slot10
  rw [uvarint_putUvarint u _ hu]

theorem readInt_slot10_32 : readInt (slot10 (putVarint ((32 : ℕ) : ℤ))) = .ok 32 := by rfl

theorem readInt_slot10_64 : readInt (slot10 (putVarint ((64 : ℕ) : ℤ))) = .ok 64 := by rfl

/-- C6: for every `SecureIndex` whose hash is SHA-256 or SHA-512,
`UnmarshalBinary (MarshalBinary si)` succeeds and reproduces the nonce, the
size, the hash identity and the bloom filter of `si` (given the bit-array
library's own codec round-trip, which spec section 6 delegates to it). -/
theorem index_codec_roundtrip (E : Externals) (si : SecureIndex)
    (hh : si.hashSize = 32 ∨ si.hashSize = 64)
    (hn : si.nonce < 2 ^ 64) (hs : si.size < 2 ^ 64)
    (hb : E.bitarrayUnmarshal (E.bitarrayMarshal si.bloomFilter) = some si.bloomFilter) :
    UnmarshalBinary E (MarshalBinary E si) = .ok si := by
  obtain ⟨bf, nonce, size, hsz⟩ := si
  simp only at hh hn hs hb
  have hread : readInt (slot10 (putVarint (hsz : ℤ))) = .ok (hsz : ℤ) := by
    rcases hh with hh | hh <;> rw [hh]
    · exact readInt_slot10_32
    · exact readInt_slot10_64
  have hlen1 : (putVarint (hsz : ℤ)).length ≤ MaxVarintLen64 := by
    rcases hh with hh | hh <;> rw [hh] <;> decide
  have hs1 : (slot10 (putVarint (hsz : ℤ))).length = MaxVarintLen64 :=
    slot10_length _ hlen1
  have hs2 : (slot10 (putUvarint nonce)).length = MaxVarintLen64 :=
    slot10_length _ (putUvarint_length_le nonce hn)
  have hs3 : (slot10 (putUvarint size)).length = MaxVarintLen64 :=
    slot10_length _ (putUvarint_length_le size hs)
  set s1 := slot10 (putVarint (hsz : ℤ)) with hs1def
  set s2 := slot10 (putUvarint nonce) with hs2def
  set s3 := slot10 (putUvarint size) with hs3def
  set bfB := E.bitarrayMarshal bf with hbfdef
  have hmar : MarshalBinary E ⟨bf, nonce, size, hsz⟩ = s1 ++ (s2 ++ (s3 ++ bfB)) := rfl
  have hlenm : (s1 ++ (s2 ++ (s3 ++ bfB))).length = 30 + bfB.length := by
    simp [hs1, hs2, hs3, MaxVarintLen64]
    try omega
  have htake10 : (s1 ++ (s2 ++ (s3 ++ bfB))).take MaxVarintLen64 = s1 :=
    List.take_left' hs1
  have hdrop10 : (s1 ++ (s2 ++ (s3 ++ bfB))).drop MaxVarintLen64 = s2 ++ (s3 ++ bfB) :=
    List.drop_left' hs1
  have hdrop20 : (s1 ++ (s2 ++ (s3 ++ bfB))).drop (2 * MaxVarintLen64) = s3 ++ bfB := by
    rw [show s1 ++ (s2 ++ (s3 ++ bfB)) = (s1 ++ s2) ++ (s3 ++ bfB) from by
      simp [List.append_assoc]]
    exact List.drop_left' (by simp [hs1, hs2, MaxVarintLen64])
  have hdrop30 : (s1 ++ (s2 ++ (s3 ++ bfB))).drop (3 * MaxVarintLen64) = bfB := by
    rw [show s1 ++ (s2 ++ (s3 ++ bfB)) = ((s1 ++ s2) ++ s3) ++ bfB from by
      simp [List.append_assoc]]
    exact List.drop_left' (by simp [hs1, hs2, hs3, MaxVarintLen64])
  rw [hmar, UnmarshalBinary, if_neg (by rw [hlenm]; simp [MaxVarintLen64]), htake10, hread]
  simp only
  rw [if_pos (by rcases hh with hh | hh <;> rw [hh] <;> norm_num),
    hdrop30, hbfdef, hb]
  rw [hdrop10, List.take_left' hs2, hdrop20, List.take_left' hs3, hs2def, hs3def]
  rw [uvarint_slot10_putUvarint nonce hn, uvarint_slot10_putUvarint size hs]
  rcases hh with hh | hh <;> rw [hh] <;> rfl

theorem index_codec_roundtrip_witness :
    UnmarshalBinary trivialExternals
        (MarshalBinary trivialExternals ⟨∅, 42, 1900000, 32⟩)
      = .ok ⟨∅, 42, 1900000, 32⟩ :=
  index_codec_roundtrip trivialExternals ⟨∅, 42, 1900000, 32⟩
    (Or.inl rfl) (by norm_num) (by norm_num) rfl

theorem putVarint_length_le (z : ℤ) : (putVarint z).length ≤ MaxVarintLen64 := by
  rw [putVarint]
  by_cases hz : z < 0 <;> simp only [hz, if_pos, if_neg, ite_true, ite_false] <;>
    exact putUvarint_length_le _ (by omega)

/-- C7: `MarshalBinary` lays out the signed-varint hash size in bytes [0,10),
the unsigned-varint nonce in bytes [10,20) and the unsigned-varint size in
bytes [20,30) — each slot 10 bytes long regardless of value — followed by the
bloom-filter bytes; and `UnmarshalBinary` fails exactly when the input is
shorter than 30 bytes (with the truncation error), the hash-size slot does not
decode to 32 or 64 (with the invalid-hash error in the decodable case), or the
trailing bloom-filter bytes fail to unmarshal. -/
theorem marshal_layout_and_unmarshal_errors (E : Externals) (si : SecureIndex)
    (input : List ℕ) (hn : si.nonce < 2 ^ 64) (hs : si.size < 2 ^ 64)
    (hbytes : ∀ b ∈ input, b < 256) :
    ((MarshalBinary E si).take MaxVarintLen64 = slot10 (putVarint (si.hashSize : ℤ))
      ∧ ((MarshalBinary E si).drop MaxVarintLen64).take MaxVarintLen64
          = slot10 (putUvarint si.nonce)
      ∧ ((MarshalBinary E si).drop (2 * MaxVarintLen64)).take MaxVarintLen64
          = slot10 (putUvarint si.size)
      ∧ (MarshalBinary E si).drop (3 * MaxVarintLen64) = E.bitarrayMarshal si.bloomFilter
      ∧ (slot10 (putVarint (si.hashSize : ℤ))).length = MaxVarintLen64
      ∧ (slot10 (putUvarint si.nonce)).length = MaxVarintLen64
      ∧ (slot10 (putUvarint si.size)).length = MaxVarintLen64)
    ∧ ((∃ e, UnmarshalBinary E input = .error e) ↔
        (input.length < 3 * MaxVarintLen64
          ∨ (readInt (input.take MaxVarintLen64) ≠ .ok 32
              ∧ readInt (input.take MaxVarintLen64) ≠ .ok 64)
          ∨ E.bitarrayUnmarshal (input.drop (3 * MaxVarintLen64)) = none))
    ∧ (input.length < 3 * MaxVarintLen64 → UnmarshalBinary E input = .error .truncatedError)
    ∧ (∀ v : ℤ, ¬input.length < 3 * MaxVarintLen64 →
        readInt (input.take MaxVarintLen64) = .ok v → v ≠ 32 → v ≠ 64 →
        UnmarshalBinary E input = .error .invalidHashError) := by
  have hs1 : (slot10 (putVarint (si.hashSize : ℤ))).length = MaxVarintLen64 :=
    slot10_length _ (putVarint_length_le _)
  have hs2 : (slot10 (putUvarint si.nonce)).length = MaxVarintLen64 :=
    slot10_length _ (putUvarint_length_le _ hn)
  have hs3 : (slot10 (putUvarint si.size)).length = MaxVarintLen64 :=
    slot10_length _ (putUvarint_length_le _ hs)
  refine ⟨⟨?_, ?_, ?_, ?_, hs1, hs2, hs3⟩, ?_, ?_, ?_⟩
  · exact List.take_left' hs1
  · rw [MarshalBinary, List.drop_left' hs1]
    exact List.take_left' hs2
  · rw [show MarshalBinary E si
        = (slot10 (putVarint (si.hashSize : ℤ)) ++ slot10 (putUvarint si.nonce))
          ++ (slot10 (putUvarint si.size) ++ E.bitarrayMarshal si.bloomFilter) from by
      rw [MarshalBinary]; simp [List.append_assoc]]
    rw [List.drop_left' (by simp [hs1, hs2, MaxVarintLen64])]
    exact List.take_left' hs3
  · rw [show MarshalBinary E si
        = ((slot10 (putVarint (si.hashSize : ℤ)) ++ slot10 (putUvarint si.nonce))
            ++ slot10 (putUvarint si.size)) ++ E.bitarrayMarshal si.bloomFilter from by
      rw [MarshalBinary]; simp [List.append_assoc]]
    exact List.drop_left' (by simp [hs1, hs2, hs3, MaxVarintLen64])
  · rw [UnmarshalBinary]
    by_cases hlen : input.length < 3 * MaxVarintLen64
    · rw [if_pos hlen]
      exact ⟨fun _ => Or.inl hlen, fun _ => ⟨.truncatedError, rfl⟩⟩
    · rw [if_neg hlen]
      cases hread : readInt (input.take MaxVarintLen64) with
      | error e =>
        simp only
        exact ⟨fun _ => Or.inr (Or.inl ⟨by simp, by simp⟩), fun _ => ⟨e, rfl⟩⟩
      | ok v =>
        simp only
        by_cases hv : v = 32 ∨ v = 64
        · rw [if_pos hv]
          cases hbf : E.bitarrayUnmarshal (input.drop (3 * MaxVarintLen64)) with
          | none =>
            simp only
            exact ⟨fun _ => Or.inr (Or.inr (by simp)), fun _ => ⟨.bloomUnmarshalError, rfl⟩⟩
          | some bf =>
            simp only
            constructor
            · rintro ⟨e, he⟩; cases he
            · rintro (h | ⟨h32, h64⟩ | h)
              · exact absurd h hlen
              · rcases hv with hv | hv
                · exact absurd (by rw [hv]) h32
                · exact absurd (by rw [hv]) h64
              · simp at h
        · rw [if_neg hv]
          push_neg at hv
          refine ⟨fun _ => Or.inr (Or.inl ⟨?_, ?_⟩), fun _ => ⟨.invalidHashError, rfl⟩⟩
          · intro h
            injection h with h'
            exact hv.1 h'
          · intro h
            injection h with h'
            exact hv.2 h'
  · intro hlen
    rw [UnmarshalBinary, if_pos hlen]
  · intro v hlen hread h32 h64
    rw [UnmarshalBinary, if_neg hlen, hread]
    simp only
    rw [if_neg (by rintro (h | h) <;> simp_all)]

theorem marshal_layout_witness :
    UnmarshalBinary trivialExternals [] = .error .truncatedError :=
  (marshal_layout_and_unmarshal_errors trivialExternals ⟨∅, 42, 1900000, 32⟩ []
    (by norm_num) (by norm_num) (by simp)).2.2.1 (by simp [MaxVarintLen64])

/-! ### Bloom-filter construction lemmas -/

theorem foldl_insert_mem_of_mem (f : List ℕ → ℕ) :
    ∀ (l : List (List ℕ)) (s : Finset ℕ) (a : ℕ), a ∈ s →
      a ∈ l.foldl (fun b t => insert (f t) b) s := by
  intro l
  induction l with
  | nil => intro s a ha; simpa using ha
  | cons hd tl ih =>
    intro s a ha
    exact ih _ a (Finset.mem_insert_of_mem ha)

theorem foldl_insert_mem_self (f : List ℕ → ℕ) :
    ∀ (l : List (List ℕ)) (s : Finset ℕ) (t : List ℕ), t ∈ l →
      f t ∈ l.foldl (fun b t => insert (f t) b) s := by
  intro l
  induction l with
  | nil => intro s t ht; simp at ht
  | cons hd tl ih =>
    intro s t ht
    rcases List.mem_cons.mp ht with h | h
    · subst h
      exact foldl_insert_mem_of_mem f tl _ (f t) (Finset.mem_insert_self _ _)
    · exact ih _ t h

theorem mem_setCodewords_of_mem (E : Externals) (sib : SecureIndexBuilder) (nonce : ℕ)
    (word : List ℕ) (bf : Finset ℕ) (a : ℕ) (ha : a ∈ bf) :
    a ∈ setCodewords E sib nonce word bf :=
  foldl_insert_mem_of_mem _ _ bf a ha

theorem codeword_mem_setCodewords (E : Externals) (sib : SecureIndexBuilder) (nonce : ℕ)
    (word : List ℕ) (bf : Finset ℕ) (t : List ℕ) (ht : t ∈ trapdoorFunc E sib word) :
    codewordOf E t nonce % sib.size ∈ setCodewords E sib nonce word bf :=
  foldl_insert_mem_self _ _ bf t ht

theorem buildBloomFilterAux_mono (E : Externals) (sib : SecureIndexBuilder) (nonce : ℕ) :
    ∀ (tokens : List (List ℕ)) (bf : Finset ℕ) (words : Finset (List ℕ)) (a : ℕ),
      a ∈ bf → a ∈ (buildBloomFilterAux E sib nonce tokens bf words).1 := by
  intro tokens
  induction tokens with
  | nil => intro bf words a ha; simpa [buildBloomFilterAux] using ha
  | cons t rest ih =>
    intro bf words a ha
    rw [buildBloomFilterAux]
    by_cases hmem : NormalizeKeyword E t ∈ words
    · rw [if_pos hmem]; exact ih bf words a ha
    · rw [if_neg hmem]
      exact ih _ _ a (mem_setCodewords_of_mem E sib nonce _ bf a ha)

theorem buildBloomFilterAux_covers (E : Externals) (sib : SecureIndexBuilder) (nonce : ℕ) :
    ∀ (tokens : List (List ℕ)) (bf : Finset ℕ) (words : Finset (List ℕ)),
      (∀ w ∈ words, ∀ t ∈ trapdoorFunc E sib w,
        codewordOf E t nonce % sib.size ∈ bf) →
      ∀ w, (w ∈ tokens.map (NormalizeKeyword E) ∨ w ∈ words) →
        ∀ t ∈ trapdoorFunc E sib w,
          codewordOf E t nonce % sib.size ∈ (buildBloomFilterAux E sib nonce tokens bf words).1 := by
  intro tokens
  induction tokens with
  | nil =>
    intro bf words hinv w hw t ht
    rcases hw with hw | hw
    · simp at hw
    · simpa [buildBloomFilterAux] using hinv w hw t ht
  | cons tok rest ih =>
    intro bf words hinv w hw t ht
    rw [buildBloomFilterAux]
    by_cases hmem : NormalizeKeyword E tok ∈ words
    · rw [if_pos hmem]
      refine ih bf words hinv w ?_ t ht
      rcases hw with hw | hw
      · rcases (by simpa using hw :
            w = NormalizeKeyword E tok ∨ ∃ u ∈ rest, NormalizeKeyword E u = w) with
          h | ⟨u, hu, huw⟩
        · subst h; exact Or.inr hmem
        · exact Or.inl (List.mem_map.mpr ⟨u, hu, huw⟩)
      · exact Or.inr hw
    · rw [if_neg hmem]
      have hinv' : ∀ w' ∈ insert (NormalizeKeyword E tok) words,
          ∀ t' ∈ trapdoorFunc E sib w',
            codewordOf E t' nonce % sib.size ∈ setCodewords E sib nonce (NormalizeKeyword E tok) bf := by
        intro w' hw' t' ht'
        rcases Finset.mem_insert.mp hw' with h | h
        · subst h
          exact codeword_mem_setCodewords E sib nonce _ bf t' ht'
        · exact mem_setCodewords_of_mem E sib nonce _ bf _ (hinv w' h t' ht')
      refine ih _ _ hinv' w ?_ t ht
      rcases hw with hw | hw
      · rcases (by simpa using hw :
            w = NormalizeKeyword E tok ∨ ∃ u ∈ rest, NormalizeKeyword E u = w) with
          h | ⟨u, hu, huw⟩
        · subst h; exact Or.inr (Finset.mem_insert_self _ _)
        · exact Or.inl (List.mem_map.mpr ⟨u, hu, huw⟩)
      · exact Or.inr (Finset.mem_insert_of_mem hw)

theorem processBatch_mono (size mask : ℕ) :
    ∀ (rands : List ℕ) (i : ℤ) (bf : Finset ℕ) (a : ℕ), a ∈ bf →
      a ∈ (processBatch size mask rands i bf).1 := by
  intro rands
  induction rands with
  | nil => intro i bf a ha; exact ha
  | cons r rest ih =>
    intro i bf a ha
    rw [processBatch]
    by_cases hacc : r &&& mask < size
    · rw [if_pos hacc]
      by_cases hi : i - 1 = 0
      · rw [if_pos hi]; exact Finset.mem_insert_of_mem ha
      · rw [if_neg hi]; exact ih _ _ a (Finset.mem_insert_of_mem ha)
    · rw [if_neg hacc]; exact ih _ _ a ha

theorem blindBloomFilter_mono (size : ℕ) :
    ∀ (batches : List (List ℕ)) (bf : Finset ℕ) (i : ℤ) (bf' : Finset ℕ),
      blindBloomFilter size bf i batches = some bf' →
      ∀ a ∈ bf, a ∈ bf' := by
  intro batches
  induction batches with
  | nil =>
    intro bf i bf' hblind a ha
    rw [blindBloomFilter] at hblind
    by_cases hi : i ≤ 0
    · rw [if_pos hi] at hblind
      injection hblind with h; exact h ▸ ha
    · rw [if_neg hi] at hblind; cases hblind
  | cons b rest ih =>
    intro bf i bf' hblind a ha
    rw [blindBloomFilter] at hblind
    by_cases hi : i ≤ 0
    · rw [if_pos hi] at hblind
      injection hblind with h; exact h ▸ ha
    · rw [if_neg hi] at hblind
      exact ih _ _ _ hblind a (processBatch_mono size _ b i bf a ha)

theorem processBatch_bound (size mask : ℕ) :
    ∀ (rands : List ℕ) (i : ℤ) (bf : Finset ℕ),
      (∀ a ∈ bf, a < size) →
      ∀ a ∈ (processBatch size mask rands i bf).1, a < size := by
  intro rands
  induction rands with
  | nil => intro i bf hbf a ha; exact hbf a ha
  | cons r rest ih =>
    intro i bf hbf a ha
    rw [processBatch] at ha
    by_cases hacc : r &&& mask < size
    · rw [if_pos hacc] at ha
      by_cases hi : i - 1 = 0
      · rw [if_pos hi] at ha
        rcases Finset.mem_insert.mp ha with h | h
        · exact h ▸ hacc
        · exact hbf a h
      · rw [if_neg hi] at ha
        refine ih _ _ ?_ a ha
        intro x hx
        rcases Finset.mem_insert.mp hx with h | h
        · exact h ▸ hacc
        · exact hbf x h
    · rw [if_neg hacc] at ha
      exact ih _ _ hbf a ha

theorem blindBloomFilter_bound (size : ℕ) :
    ∀ (batches : List (List ℕ)) (bf : Finset ℕ) (i : ℤ) (bf' : Finset ℕ),
      blindBloomFilter size bf i batches = some bf' →
      (∀ a ∈ bf, a < size) →
      ∀ a ∈ bf', a < size := by
  intro batches
  induction batches with
  | nil =>
    intro bf i bf' hblind hbf
    rw [blindBloomFilter] at hblind
    by_cases hi : i ≤ 0
    · rw [if_pos hi] at hblind
      injection hblind with h; exact h ▸ hbf
    · rw [if_neg hi] at hblind; cases hblind
  | cons b rest ih =>
    intro bf i bf' hblind hbf
    rw [blindBloomFilter] at hblind
    by_cases hi : i ≤ 0
    · rw [if_pos hi] at hblind
      injection hblind with h; exact h ▸ hbf
    · rw [if_neg hi] at hblind
      exact ih _ _ _ hblind (processBatch_bound size _ b i bf hbf)

theorem foldl_insert_codeword_bound (E : Externals) (sib : SecureIndexBuilder) (nonce : ℕ)
    (hm : 1 ≤ sib.size) :
    ∀ (l : List (List ℕ)) (bf : Finset ℕ),
      (∀ a ∈ bf, a < sib.size) →
      ∀ a ∈ l.foldl (fun b t => insert (codewordOf E t nonce % sib.size) b) bf, a < sib.size := by
  intro l
  induction l with
  | nil => intro bf hbf a ha; exact hbf a ha
  | cons t rest ih =>
    intro bf hbf a ha
    refine ih _ ?_ a ha
    intro x hx
    rcases Finset.mem_insert.mp hx with h | h
    · exact h ▸ Nat.mod_lt _ (by omega)
    · exact hbf x h

theorem setCodewords_bound (E : Externals) (sib : SecureIndexBuilder) (nonce : ℕ)
    (hm : 1 ≤ sib.size) (word : List ℕ) (bf : Finset ℕ)
    (hbf : ∀ a ∈ bf, a < sib.size) :
    ∀ a ∈ setCodewords E sib nonce word bf, a < sib.size :=
  foldl_insert_codeword_bound E sib nonce hm (trapdoorFunc E sib word) bf hbf

theorem buildBloomFilterAux_bound (E : Externals) (sib : SecureIndexBuilder) (nonce : ℕ)
    (hm : 1 ≤ sib.size) :
    ∀ (tokens : List (List ℕ)) (bf : Finset ℕ) (words : Finset (List ℕ)),
      (∀ a ∈ bf, a < sib.size) →
      ∀ a ∈ (buildBloomFilterAux E sib nonce tokens bf words).1, a < sib.size := by
  intro tokens
  induction tokens with
  | nil => intro bf words hbf a ha; exact hbf a (by simpa [buildBloomFilterAux] using ha)
  | cons t rest ih =>
    intro bf words hbf a ha
    rw [buildBloomFilterAux] at ha
    by_cases hmem : NormalizeKeyword E t ∈ words
    · rw [if_pos hmem] at ha; exact ih bf words hbf a ha
    · rw [if_neg hmem] at ha
      exact ih _ _ (setCodewords_bound E sib nonce hm _ bf hbf) a ha

theorem int64Of_range (z : ℤ) : -(2 ^ 63) ≤ int64Of z ∧ int64Of z < 2 ^ 63 := by
  rw [int64Of, int64OfUInt64, uint64OfInt64]
  split_ifs <;> omega

theorem int64Of_eq_self (z : ℤ) (h1 : -(2 ^ 63) ≤ z) (h2 : z < 2 ^ 63) :
    int64Of z = z := by
  rw [int64Of, int64OfUInt64, uint64OfInt64]
  split_ifs <;> omega

theorem blindBloomFilter_nonpos (size : ℕ) (bf : Finset ℕ) (i : ℤ)
    (batches : List (List ℕ)) (hi : i ≤ 0) :
    blindBloomFilter size bf i batches = some bf := by
  cases batches <;> rw [blindBloomFilter] <;> rw [if_pos hi]

/-- C1: no false negatives.  For every document (token list), index size
`m ≥ 1`, file length, nonce, blinding randomness and external primitives, if
the normalized form of a word `w` occurs among the normalized whitespace
tokens of the document, then the index returned by `BuildSecureIndex`, queried
with the trapdoor vector `ComputeTrapdoors w` (checking that every trapdoor's
codeword bit modulo `m` is set), answers possibly-present. -/
theorem no_false_negative (E : Externals) (sib : SecureIndexBuilder) (nonce : ℕ)
    (tokens : List (List ℕ)) (fileLen : ℤ) (batches : List (List ℕ)) (w : List ℕ)
    (si : SecureIndex) (hm : 1 ≤ sib.size)
    (hocc : NormalizeKeyword E w ∈ tokens.map (NormalizeKeyword E))
    (hbuild : BuildSecureIndex E sib nonce tokens fileLen batches = some si) :
    SearchSecureIndex E si (ComputeTrapdoors E sib w) = true := by
  rw [BuildSecureIndex] at hbuild
  cases hblind : blindBloomFilter sib.size (buildBloomFilter E sib nonce tokens).1
      (blindingIterations sib fileLen (buildBloomFilter E sib nonce tokens).2)
      batches with
  | none => rw [hblind] at hbuild; cases hbuild
  | some bf' =>
    rw [hblind] at hbuild
    injection hbuild with hsi
    subst hsi
    rw [SearchSecureIndex, List.all_eq_true]
    intro t ht
    rw [decide_eq_true_eq]
    have hmem : codewordOf E t nonce % sib.size ∈ (buildBloomFilter E sib nonce tokens).1 := by
      rw [buildBloomFilter]
      exact buildBloomFilterAux_covers E sib nonce tokens ∅ ∅ (by simp)
        (NormalizeKeyword E w) (Or.inl hocc) t ht
    exact blindBloomFilter_mono sib.size batches _ _ bf' hblind _ hmem

set_option maxRecDepth 8000 in
theorem no_false_negative_witness :
    SearchSecureIndex trivialExternals ⟨{5}, 3, 7, 32⟩
      (ComputeTrapdoors trivialExternals ⟨[[5]], 7⟩ [97]) = true :=
  no_false_negative trivialExternals ⟨[[5]], 7⟩ 3 [[97]] 0 [] [97] ⟨{5}, 3, 7, 32⟩
    (by norm_num) (by decide) (by decide)

set_option maxRecDepth 8000 in
/-- C8 counterexample: `fileLen - u` negative does not guarantee zero
blinding, because Go computes the count `(fileLen - numUniqWords) *
int64(len(sib.keys))` in `int64`: at `fileLen = -2^62` with an empty document
(`u = 0`), three keys and size 1, the product `-3 * 2^62` wraps to `+2^62`,
so the blinding loop runs (here: the build keeps drawing instead of returning
the unblinded codeword-bit filter without error). -/
theorem negative_blinding_benign_cx :
    (-(2 ^ 62) : ℤ) - ((buildBloomFilter trivialExternals ⟨[[1], [2], [3]], 1⟩ 0 []).2 : ℤ) < 0
    ∧ BuildSecureIndex trivialExternals ⟨[[1], [2], [3]], 1⟩ 0 [] (-(2 ^ 62)) [] = none := by
  decide

/-- C8 amended: when the `int64` difference `fileLen - u` computed by the
builder is negative, the `int64` product `(fileLen - u) * len(keys)` does not
underflow (it is at least `-2^63`), and the index size is at least 1 (Go's
`codeword % size` panics at size 0), `BuildSecureIndex` (given a successful
nonce draw) performs no blinding at all: it returns, without error, the index
whose bloom filter is exactly the codeword bits built from the document. -/
theorem negative_blinding_benign (E : Externals) (sib : SecureIndexBuilder) (nonce : ℕ)
    (tokens : List (List ℕ)) (fileLen : ℤ) (batches : List (List ℕ))
    (hm : 1 ≤ sib.size)
    (hkl : (sib.keys.length : ℤ) < 2 ^ 63)
    (hneg : int64Of (fileLen - int64Of ((buildBloomFilter E sib nonce tokens).2 : ℤ)) < 0)
    (hnw : -(2 ^ 63) ≤ int64Of (fileLen - int64Of ((buildBloomFilter E sib nonce tokens).2 : ℤ))
        * (sib.keys.length : ℤ)) :
    BuildSecureIndex E sib nonce tokens fileLen batches
      = some ⟨(buildBloomFilter E sib nonce tokens).1, nonce, sib.size, E.hashSize⟩ := by
  rw [BuildSecureIndex]
  have hlen64 : int64Of ((sib.keys.length : ℤ)) = (sib.keys.length : ℤ) :=
    int64Of_eq_self _ (by omega) hkl
  have hprod : int64Of (fileLen - int64Of ((buildBloomFilter E sib nonce tokens).2 : ℤ))
      * (sib.keys.length : ℤ) ≤ 0 :=
    mul_nonpos_iff.mpr (Or.inr ⟨by omega, by omega⟩)
  have hcount : blindingIterations sib fileLen (buildBloomFilter E sib nonce tokens).2 ≤ 0 := by
    rw [blindingIterations, hlen64,
      int64Of_eq_self _ hnw (lt_of_le_of_lt hprod (by norm_num))]
    exact hprod
  rw [blindBloomFilter_nonpos _ _ _ _ hcount]

set_option maxRecDepth 8000 in
theorem negative_blinding_benign_witness :
    BuildSecureIndex trivialExternals ⟨[[5]], 7⟩ 3 [[97]] 0 []
      = some ⟨{5}, 3, 7, 32⟩ := by
  rw [negative_blinding_benign trivialExternals ⟨[[5]], 7⟩ 3 [[97]] 0 [] (by norm_num)
    (by norm_num) (by decide) (by decide)]
  rfl

/-- C9: for every builder with size `m ≥ 1`, every bit index set in the bloom
filter of an index returned by `BuildSecureIndex` — whether a codeword bit
reduced modulo `m` or a blinding bit accepted only when below `m` — is
strictly less than `m`. -/
theorem bloom_bits_lt_size (E : Externals) (sib : SecureIndexBuilder) (nonce : ℕ)
    (tokens : List (List ℕ)) (fileLen : ℤ) (batches : List (List ℕ))
    (si : SecureIndex) (hm : 1 ≤ sib.size)
    (hbuild : BuildSecureIndex E sib nonce tokens fileLen batches = some si) :
    ∀ b ∈ si.bloomFilter, b < sib.size := by
  rw [BuildSecureIndex] at hbuild
  cases hblind : blindBloomFilter sib.size (buildBloomFilter E sib nonce tokens).1
      (blindingIterations sib fileLen (buildBloomFilter E sib nonce tokens).2)
      batches with
  | none => rw [hblind] at hbuild; cases hbuild
  | some bf' =>
    rw [hblind] at hbuild
    injection hbuild with hsi
    subst hsi
    intro b hb
    refine blindBloomFilter_bound sib.size batches _ _ bf' hblind ?_ b hb
    rw [buildBloomFilter]
    exact buildBloomFilterAux_bound E sib nonce hm tokens ∅ ∅ (by simp)

set_option maxRecDepth 8000 in
theorem bloom_bits_lt_size_witness : (5 : ℕ) < 7 :=
  bloom_bits_lt_size trivialExternals ⟨[[5]], 7⟩ 3 [[97]] 0 [] ⟨{5}, 3, 7, 32⟩
    (by norm_num) (by decide) 5 (by decide)

/-- C5 counterexample: at the nonce `2^64 - 1` the message actually HMAC'd by
the builder (and by the searcher) is `bigEndianMinimal 1` = `[1]` — the bytes
of `|int64(nonce)| = 1` — not the minimal big-endian encoding of the nonce's
numeric value, so the claimed encoding is false as stated. -/
theorem codeword_nonce_encoding_cx :
    nonceMessage (2 ^ 64 - 1) ≠ bigEndianMinimal (2 ^ 64 - 1) := by decide

/-- C5 amended: the message HMAC'd to produce a codeword is the minimal
big-endian encoding of the absolute value of the nonce reinterpreted as a
signed 64-bit integer; this coincides with the minimal big-endian encoding of
the nonce's numeric value exactly on nonces up to `2^63`; and the codeword is
the (little-endian base-128) unsigned varint decode of the HMAC output. -/
theorem codeword_nonce_encoding (E : Externals) (t : List ℕ) (nonce : ℕ)
    (hn : nonce < 2 ^ 64) :
    codewordOf E t nonce = (uvarint (E.hmac t (nonceMessage nonce))).1
    ∧ nonceMessage nonce = bigEndianMinimal (int64OfUInt64 nonce).natAbs
    ∧ (nonce ≤ 2 ^ 63 → nonceMessage nonce = bigEndianMinimal nonce) := by
  refine ⟨rfl, rfl, fun h => ?_⟩
  rw [nonceMessage, int64OfUInt64]
  by_cases h63 : nonce < 2 ^ 63
  · rw [if_pos h63]
    norm_num
  · rw [if_neg h63]
    have hn63 : nonce = 2 ^ 63 := by omega
    subst hn63
    norm_num

theorem codeword_nonce_encoding_witness :
    nonceMessage 5 = bigEndianMinimal 5 :=
  (codeword_nonce_encoding trivialExternals [] 5 (by norm_num)).2.2 (by norm_num)

/-- C3: the Go `padPathname` never writes the zero padding its own doc comment
and the spec describe — `nextPowerOfTwo` is computed only for the buffer
capacity.  On the one-byte pathname "a" the output is the 4-byte little-endian
length prefix followed by the single pathname byte, of total length 5, not
`4 + nextPowerOfTwo 1 = 6` as the padded-pathname format requires. -/
theorem padPathname_writes_no_padding :
    padPathname [97] = [1, 0, 0, 0, 97]
    ∧ (padPathname [97]).length = 5
    ∧ nextPowerOfTwo 1 = 2
    ∧ (padPathname [97]).length ≠ 4 + nextPowerOfTwo 1 := by decide

/-! ### DocID cipher lemmas -/

theorem int64_uint64_roundtrip (z : ℤ) (h1 : -(2 ^ 63) ≤ z) (h2 : z < 2 ^ 63) :
    int64OfUInt64 (uint64OfInt64 z) = z := by
  rw [int64OfUInt64, uint64OfInt64]
  split_ifs <;> omega

theorem bytesum32 (n : ℕ) (h : n < 2 ^ 32) :
    n % 256 + (n >>> 8 % 256) <<< 8 + (n >>> 16 % 256) <<< 16
      + (n >>> 24 % 256) <<< 24 = n := by
  simp only [Nat.shiftRight_eq_div_pow, Nat.shiftLeft_eq]
  norm_num
  omega

theorem bytesum64 (n : ℕ) (h : n < 2 ^ 64) :
    n % 256 + (n >>> 8 % 256) <<< 8 + (n >>> 16 % 256) <<< 16 + (n >>> 24 % 256) <<< 24
      + (n >>> 32 % 256) <<< 32 + (n >>> 40 % 256) <<< 40 + (n >>> 48 % 256) <<< 48
      + (n >>> 56 % 256) <<< 56 = n := by
  simp only [Nat.shiftRight_eq_div_pow, Nat.shiftLeft_eq]
  norm_num
  omega

theorem readInt64LE8_putInt64LE (z : ℤ) (h1 : -(2 ^ 63) ≤ z) (h2 : z < 2 ^ 63) :
    readInt64LE8 (putInt64LE z) = z := by
  have hlt : uint64OfInt64 z < 2 ^ 64 := by
    rw [uint64OfInt64]; omega
  simp only [putInt64LE, readInt64LE8]
  rw [bytesum64 _ hlt]
  exact int64_uint64_roundtrip z h1 h2

theorem putInt64LE_length (z : ℤ) : (putInt64LE z).length = 8 := rfl

theorem readUint32LE_putUint32LE (n : ℕ) (rest : List ℕ) (h : n < 2 ^ 32) :
    readUint32LE (putUint32LE n ++ rest) = some n := by
  simp only [putUint32LE, List.cons_append, List.nil_append, readUint32LE]
  rw [bytesum32 n h]

theorem putUint32LE_length (n : ℕ) : (putUint32LE n).length = 4 := rfl

theorem fixedBytes_length (k : ℕ) (l : List ℕ) : (fixedBytes k l).length = k := by
  simp only [fixedBytes, List.length_append, List.length_take, List.length_replicate]
  omega

theorem fixedBytes_of_length (k : ℕ) (l : List ℕ) (h : l.length = k) :
    fixedBytes k l = l := by
  rw [fixedBytes, List.take_of_length_le (le_of_eq h)]
  simp [h]

theorem depadPathname_padPathname (p : List ℕ) :
    depadPathname (padPathname p) = .ok (p.take (p.length % 2 ^ 32)) := by
  have h1 : padPathname p = putUint32LE (p.length % 2 ^ 32) ++ p := rfl
  rw [h1, depadPathname, readUint32LE_putUint32LE _ _ (Nat.mod_lt _ (by norm_num))]
  simp only
  rw [if_neg (by
    simp only [List.length_append, putUint32LE_length]
    have h1 := Nat.mod_le (4 + p.length % 2 ^ 32) (2 ^ 32)
    have h2 := Nat.mod_le p.length (2 ^ 32)
    omega)]
  rw [List.drop_left' (putUint32LE_length _)]

/-- The document ID built by `PathnameToDocID`, decrypted with a key list
holding the right key at position `keyGen - FirstValidKeyGen`, always yields
the first `len(pathname) mod 2^32` bytes of the pathname: the `uint32` length
prefix written by `padPathname` wraps.  Core computation behind C2. -/
theorem docIDToPathname_pathnameToDocID (E : Externals) (g : ℤ) (p key : List ℕ)
    (keys : List (List ℕ))
    (hg1 : FirstValidKeyGen ≤ g) (hg2 : g < 2 ^ 63)
    (hidx : (g - FirstValidKeyGen).toNat < keys.length)
    (hkey : keys.getD (g - FirstValidKeyGen).toNat [] = key)
    (hb64 : ∀ x, E.b64dec (E.b64enc x) = some x)
    (hbox : ∀ n k pt, E.openBox n k (E.sealBox n k pt) = some pt) :
    DocIDToPathname E (PathnameToDocID E g p key) keys
      = .ok (p.take (p.length % 2 ^ 32)) := by
  simp only [FirstValidKeyGen] at hg1 hidx hkey
  rw [PathnameToDocID, DocIDToPathname]
  simp only
  rw [hb64]
  simp only
  have hnl : (fixedBytes 24 (E.sha256 p)).length = 24 := fixedBytes_length _ _
  have hlen : (putInt64LE g ++ (fixedBytes 24 (E.sha256 p)
      ++ E.sealBox (fixedBytes 24 (E.sha256 p)) key (padPathname p))).length
      = 32 + (E.sealBox (fixedBytes 24 (E.sha256 p)) key (padPathname p)).length := by
    simp only [List.length_append, putInt64LE_length, hnl]
    omega
  rw [if_neg (by rw [hlen]; omega)]
  rw [List.take_left' (putInt64LE_length g), readInt64LE8_putInt64LE g (by omega) hg2]
  rw [if_neg (by simp only [FirstValidKeyGen]; push_neg; omega)]
  simp only [FirstValidKeyGen]
  rw [hkey, if_neg (by rw [hlen]; omega)]
  rw [List.drop_left' (putInt64LE_length g), List.take_left' hnl,
    fixedBytes_of_length _ _ hnl]
  rw [show putInt64LE g ++ (fixedBytes 24 (E.sha256 p)
      ++ E.sealBox (fixedBytes 24 (E.sha256 p)) key (padPathname p))
      = (putInt64LE g ++ fixedBytes 24 (E.sha256 p))
        ++ E.sealBox (fixedBytes 24 (E.sha256 p)) key (padPathname p) from by
    simp [List.append_assoc]]
  rw [List.drop_left' (by simp [putInt64LE_length, hnl])]
  rw [hbox]
  exact depadPathname_padPathname p

/-- C2 amended: DocID round-trip.  For every non-empty pathname of byte length
below `2^32`, every 32-byte key and every key generation `g` (an `int64`),
`DocIDToPathname (PathnameToDocID g p k) keys` returns `p` without error when
`keys` holds `k` at position `g - FirstValidKeyGen` (given the base64 and
secretbox round-trips of the external libraries). -/
theorem docID_roundtrip (E : Externals) (g : ℤ) (p key : List ℕ)
    (keys : List (List ℕ)) (hkey32 : key.length = 32)
    (hg1 : FirstValidKeyGen ≤ g) (hg2 : g < 2 ^ 63)
    (hidx : (g - FirstValidKeyGen).toNat < keys.length)
    (hkey : keys.getD (g - FirstValidKeyGen).toNat [] = key)
    (hp : p ≠ []) (hplen : p.length < 2 ^ 32)
    (hb64 : ∀ x, E.b64dec (E.b64enc x) = some x)
    (hbox : ∀ n k pt, E.openBox n k (E.sealBox n k pt) = some pt) :
    DocIDToPathname E (PathnameToDocID E g p key) keys = .ok p := by
  rw [docIDToPathname_pathnameToDocID E g p key keys hg1 hg2 hidx hkey hb64 hbox]
  rw [Nat.mod_eq_of_lt hplen, List.take_length]

theorem docID_roundtrip_witness :
    DocIDToPathname trivialExternals
        (PathnameToDocID trivialExternals 1 [97, 98] (List.replicate 32 0))
        [List.replicate 32 0] = .ok [97, 98] :=
  docID_roundtrip trivialExternals 1 [97, 98] (List.replicate 32 0)
    [List.replicate 32 0] (by decide) (by decide) (by norm_num) (by decide) rfl
    (by decide) (by norm_num) (fun x => rfl) (fun n k pt => rfl)

/-- C2 counterexample: the round-trip fails for the non-empty pathname of
`2^32` letter-'a' bytes under key generation 1 and a 32-byte key held at
position 0: the `uint32` length prefix wraps to 0, so decryption returns the
empty pathname instead of `p`. -/
theorem docID_roundtrip_cx :
    DocIDToPathname trivialExternals
        (PathnameToDocID trivialExternals 1 (List.replicate (2 ^ 32) 97)
          (List.replicate 32 0))
        [List.replicate 32 0]
      ≠ GoResult.ok (List.replicate (2 ^ 32) 97) := by
  rw [docIDToPathname_pathnameToDocID trivialExternals 1 (List.replicate (2 ^ 32) 97)
    (List.replicate 32 0) [List.replicate 32 0] (by decide) (by norm_num) (by decide)
    rfl (fun x => rfl) (fun n k pt => rfl)]
  rw [List.length_replicate, Nat.mod_self, List.take_zero]
  intro h
  injection h with h'
  have h2 := congrArg List.length h'
  rw [List.length_replicate] at h2
  rw [List.length_nil] at h2
  omega

/-- C10: key-generation extraction round-trip.  For every pathname, every
32-byte key and every key generation representable as a signed 64-bit
integer, `GetKeyGenFromDocID (PathnameToDocID g p k)` returns `g` without
error (given the base64 round-trip of the external library). -/
theorem getKeyGen_roundtrip (E : Externals) (g : ℤ) (p key : List ℕ)
    (hkey32 : key.length = 32)
    (hg1 : -(2 ^ 63) ≤ g) (hg2 : g < 2 ^ 63)
    (hb64 : ∀ x, E.b64dec (E.b64enc x) = some x) :
    GetKeyGenFromDocID E (PathnameToDocID E g p key) = .ok g := by
  rw [PathnameToDocID, GetKeyGenFromDocID]
  rw [hb64]
  simp only
  rw [if_neg (by simp [putInt64LE_length, fixedBytes_length])]
  rw [List.take_left' (putInt64LE_length g), readInt64LE8_putInt64LE g hg1 hg2]

theorem getKeyGen_roundtrip_witness :
    GetKeyGenFromDocID trivialExternals
        (PathnameToDocID trivialExternals 5 [97] (List.replicate 32 0)) = .ok 5 :=
  getKeyGen_roundtrip trivialExternals 5 [97] (List.replicate 32 0) (by decide)
    (by norm_num) (by norm_num) (fun x => rfl)

/-- C4 counterexample: on the empty document ID (base64 decode of the empty
string succeeds with the empty byte string) `DocIDToPathname` panics at the
version slice `docIDRaw[0:8]` instead of returning an error value. -/
theorem docIDToPathname_panics_cx :
    DocIDToPathname trivialExternals [] [] = GoResult.panicked := by decide

/-- C4 amended: `DocIDToPathname` returns an error value on base64-decode
failure and on secretbox authentication failure (and an error on invalid
padding), but it PANICS — rather than returning an error — whenever the
decoded byte string is shorter than 32 bytes or the decoded key generation
lies outside the supplied key list; in none of these cases does it return a
pathname. -/
theorem docIDToPathname_error_semantics (E : Externals) (docID : List ℕ)
    (keys : List (List ℕ)) :
    (E.b64dec docID = none → DocIDToPathname E docID keys = .goError .base64DecodeError)
    ∧ (∀ raw, E.b64dec docID = some raw → raw.length < 32 →
        DocIDToPathname E docID keys = .panicked)
    ∧ (∀ raw, E.b64dec docID = some raw → 32 ≤ raw.length →
        (readInt64LE8 (raw.take 8) - FirstValidKeyGen < 0
          ∨ (keys.length : ℤ) ≤ readInt64LE8 (raw.take 8) - FirstValidKeyGen) →
        DocIDToPathname E docID keys = .panicked)
    ∧ (∀ raw, E.b64dec docID = some raw → 32 ≤ raw.length →
        ¬(readInt64LE8 (raw.take 8) - FirstValidKeyGen < 0
          ∨ (keys.length : ℤ) ≤ readInt64LE8 (raw.take 8) - FirstValidKeyGen) →
        E.openBox (fixedBytes 24 ((raw.drop 8).take 24))
            (keys.getD (readInt64LE8 (raw.take 8) - FirstValidKeyGen).toNat [])
            (raw.drop 32) = none →
        DocIDToPathname E docID keys = .goError .invalidDocumentID) := by
  refine ⟨fun hb => ?_, fun raw hb hlen => ?_, fun raw hb hlen hkg => ?_,
    fun raw hb hlen hkg hob => ?_⟩
  · rw [DocIDToPathname, hb]
  · rw [DocIDToPathname, hb]
    simp only
    by_cases h8 : raw.length < 8
    · rw [if_pos h8]
    · rw [if_neg h8]
      by_cases hkg : readInt64LE8 (raw.take 8) - FirstValidKeyGen < 0
          ∨ (keys.length : ℤ) ≤ readInt64LE8 (raw.take 8) - FirstValidKeyGen
      · rw [if_pos hkg]
      · rw [if_neg hkg, if_pos hlen]
  · rw [DocIDToPathname, hb]
    simp only
    rw [if_neg (by omega), if_pos hkg]
  · rw [DocIDToPathname, hb]
    simp only
    rw [if_neg (by omega), if_neg hkg, if_neg (by omega), hob]

theorem docIDToPathname_error_semantics_witness :
    DocIDToPathname trivialExternals [0, 1, 2] [] = GoResult.panicked :=
  (docIDToPathname_error_semantics trivialExternals [0, 1, 2] []).2.1 [0, 1, 2]
    rfl (by norm_num)
